import Mathlib

/-!
A verification of the scheduling engine in `src/RoundRobinScheduler.tsx`.

This file shallowly embeds the computational core of the repository's
`RoundRobinScheduler.tsx`: the round-robin simulator `roundRobin`, the
first-come-first-served simulator `fcfsScheduler`, and the quantum-sweep
analysis performed by the `AnalyzeView` component (`maxQOf`, `qValuesOf`,
`sweepPoints`, `minAwtPoint`).

Modelling conventions:
* JavaScript numbers are modelled as `ℤ` for all engine quantities
  (process ids, arrival times, burst times, the quantum, clock times):
  every value the program ever feeds into the engine is an integer
  (`DEFAULT_PROCESSES`, every UI field goes through `parseInt`, the sweep
  uses integer quanta).  Derived averages are modelled as `Option ℚ`,
  where `none` models the JavaScript `NaN` produced by the `0/0` division
  on an empty process list (`jsDiv`).
* JavaScript's stable `Array.prototype.sort` with a consistent comparator
  (`(a, b) => a.at - b.at`, `(a, b) => a.id - b.id`) is modelled by the
  stable `List.insertionSort` with the corresponding `≤` relation.
* The `while (queue.length > 0)` loop is modelled by the step function
  `stepRR` driven by fuel (`runRR`); `rrFuel` is an upper bound on the
  number of iterations, proved sufficient for quantum `≥ 1` below.
* The source field names `at` and `end` are Lean keywords; they are
  rendered `at'` and `stop`.
-/

/-- Source record type Proc with fields id, at, bt (line 15). -/
structure Proc where
  id : ℤ
  /-- arrival time; the source field is named `at`, a Lean keyword -/
  at' : ℤ
  /-- burst time -/
  bt : ℤ
deriving DecidableEq, Repr, Inhabited

/-- One Gantt/timeline segment with `pid`, `start` and `end` (line 18). -/
structure Seg where
  pid : String
  start : ℤ
  /-- segment end; `end` is a Lean keyword -/
  stop : ℤ
deriving DecidableEq, Repr, Inhabited

/-- One row of `resultData`: a `Proc` extended with `ct, tat, wt, rt` (line 17). -/
structure RRow where
  id : ℤ
  at' : ℤ
  bt : ℤ
  ct : ℤ
  tat : ℤ
  wt : ℤ
  rt : ℤ
deriving DecidableEq, Repr, Inhabited

/-- The source's `RRResult` record (lines 16–25). -/
structure RRResult where
  resultData : List RRow
  gantt : List Seg
  cs : ℕ
  avgTat : Option ℚ
  avgWt : Option ℚ
  cpuUtil : String
  throughput : String
  totalTime : ℤ
deriving DecidableEq, Repr, Inhabited

/-- Source constant `DEFAULT_PROCESSES` (lines 27–32). -/
def DEFAULT_PROCESSES : List Proc :=
  [⟨1, 0, 5⟩, ⟨2, 1, 3⟩, ⟨3, 2, 8⟩, ⟨4, 3, 6⟩]

/-- JavaScript division producing an average: `x / n` is `NaN` when `n = 0`
(the only case reached here is `0 / 0` on an empty process list), modelled
as `none`. -/
def jsDiv (a b : ℚ) : Option ℚ := if b = 0 then none else some (a / b)

/-- Model of `Number.prototype.toFixed(d)` on an exact rational value: round
half-up to `d` decimal places and print with a zero-padded fraction. -/
def jsToFixed (d : ℕ) (x : ℚ) : String :=
  let scaled : ℤ := Int.floor (|x| * (10 : ℚ) ^ d + 1 / 2)
  let ip := scaled / (10 : ℤ) ^ d
  let fp := (scaled % (10 : ℤ) ^ d).toNat
  let fracStr := (toString ((10 : ℕ) ^ d + fp)).drop 1
  (if x < 0 then "-" else "") ++ toString ip ++
    (if d = 0 then "" else "." ++ fracStr)

/-- The template string building segment labels: the letter P followed by the id. -/
def pidStr (i : ℤ) : String := "P" ++ toString i

/-- The `reduce` at lines 97 and 126: count adjacent timeline segments
whose `pid`s differ. -/
def countSwitches : List Seg → ℕ
  | a :: b :: rest => (if a.pid ≠ b.pid then 1 else 0) + countSwitches (b :: rest)
  | _ => 0

/-- Total duration of a timeline. -/
def durSum (g : List Seg) : ℤ := (g.map (fun s => s.stop - s.start)).sum

/-- Line 41, a spread copy followed by a sort comparing `at`: a stable sort by arrival
time, acting on a copy of the caller's array. -/
def sortByArrival (procs : List Proc) : List Proc :=
  List.insertionSort (fun a b => a.at' ≤ b.at') procs

/-- The mutable simulation state of `roundRobin`'s main loop
(lines 43–49): the working arrays, the clock, the FIFO queue of indices
into the arrival-sorted array, the visited flags and the grown timeline. -/
structure SimState where
  remaining : List ℤ
  completion : List ℤ
  firstResponse : List ℤ
  time : ℤ
  queue : List ℕ
  visited : List Bool
  gantt : List Seg
deriving DecidableEq, Repr, Inhabited

/-- Scan loop over indices that enqueues (in scan order) every index
satisfying `cond` that is not yet visited, marking it visited.  Returns
the enqueued indices in order together with the updated visited array. -/
def scanEnqueue (cond : ℕ → Bool) : List ℕ → List Bool → List ℕ × List Bool
  | [], vis => ([], vis)
  | j :: js, vis =>
    if cond j && !(vis.getD j false) then
      let r := scanEnqueue cond js (vis.set j true)
      (j :: r.1, r.2)
    else
      scanEnqueue cond js vis

/-- The scan at lines 68–73: enqueue every not-yet-visited `j` with
`sorted[j].at <= time && remaining[j] > 0`, in index order. -/
def arrivalScan (ps : List Proc) (stop : ℤ) (rem' : List ℤ)
    (visited : List Bool) : List ℕ × List Bool :=
  scanEnqueue
    (fun j => decide ((ps.getD j default).at' ≤ stop) && decide (0 < rem'.getD j 0))
    (List.range ps.length) visited

/-- The initial scan at lines 51–56: enqueue every `i` with
`sorted[i].at <= time` (no remaining-time test here). -/
def initScan (ps : List Proc) (time0 : ℤ) (visited : List Bool) :
    List ℕ × List Bool :=
  scanEnqueue (fun j => decide ((ps.getD j default).at' ≤ time0))
    (List.range ps.length) visited

/-- The state just before the main loop (lines 43–56); the clock starts
at `sorted[0]?.at ?? 0`. -/
def initState (ps : List Proc) : SimState :=
  let n := ps.length
  let time0 := ((ps.head?).map (·.at')).getD 0
  let scanned := initScan ps time0 (List.replicate n false)
  { remaining := ps.map (·.bt)
    completion := List.replicate n 0
    firstResponse := List.replicate n (-1)
    time := time0
    queue := scanned.1
    visited := scanned.2
    gantt := [] }

/-- One iteration of the `while` loop, lines 58–75: dequeue the head `i`,
record its first response, run it for `min(remaining[i], q)`, append the
segment, scan for new arrivals, then either re-enqueue `i` or record its
completion.  (The gap-filling step at lines 77–86 is `gapFill` below.) -/
def stepCore (ps : List Proc) (q : ℤ) (s : SimState) : SimState :=
  match s.queue with
  | [] => s
  | i :: rest =>
    let p := ps.getD i default
    let fr := if s.firstResponse.getD i 0 = -1
      then s.firstResponse.set i (s.time - p.at') else s.firstResponse
    let runTime := min (s.remaining.getD i 0) q
    let stop := s.time + runTime
    let gantt' := s.gantt ++ [⟨pidStr p.id, s.time, stop⟩]
    let rem' := s.remaining.set i (s.remaining.getD i 0 - runTime)
    let scanned := arrivalScan ps stop rem' s.visited
    let queue' := if 0 < rem'.getD i 0
      then rest ++ scanned.1 ++ [i] else rest ++ scanned.1
    let completion' := if 0 < rem'.getD i 0
      then s.completion else s.completion.set i stop
    { remaining := rem'
      completion := completion'
      firstResponse := fr
      time := stop
      queue := queue'
      visited := scanned.2
      gantt := gantt' }

/-- Lines 77–86: if the queue emptied, fast-forward to the first (in scan
order) unvisited process that still needs CPU, enqueue it, mark it
visited; idle time produces no segment. -/
def gapFill (ps : List Proc) (s : SimState) : SimState :=
  if s.queue = [] then
    match (List.range ps.length).find?
        (fun k => decide (0 < s.remaining.getD k 0) && !(s.visited.getD k false)) with
    | some k =>
      { s with time := max s.time (ps.getD k default).at'
               queue := [k]
               visited := s.visited.set k true }
    | none => s
  else s

/-- One full iteration of the `while` loop (lines 58–87). -/
def stepRR (ps : List Proc) (q : ℤ) (s : SimState) : SimState :=
  gapFill ps (stepCore ps q s)

/-- The `while (queue.length > 0)` loop, driven by fuel. -/
def runRR (ps : List Proc) (q : ℤ) : ℕ → SimState → SimState
  | 0, s => s
  | fuel + 1, s => if s.queue = [] then s else runRR ps q fuel (stepRR ps q s)

/-- Fuel bound for the loop: when the quantum is `≥ 1` each iteration
strictly decreases the total remaining time, so `Σ bt + 1` iterations
always suffice (proved in `runRR_runsOut` below). -/
def rrFuel (ps : List Proc) : ℕ := (ps.map (fun p => p.bt.toNat)).sum + 1

/-- The simulation state after the main loop of `roundRobin procs q`. -/
def rrFinal (procs : List Proc) (q : ℤ) : SimState :=
  let sorted := sortByArrival procs
  runRR sorted q (rrFuel sorted) (initState sorted)

/-- Source function `roundRobin(procs, q)` (lines 40–106). -/
def roundRobin (procs : List Proc) (q : ℤ) : RRResult :=
  let sorted := sortByArrival procs
  let n := sorted.length
  let final := rrFinal procs q
  let tat := (List.range n).map
    (fun i => final.completion.getD i 0 - (sorted.getD i default).at')
  let wt := (List.range n).map
    (fun i => tat.getD i 0 - (sorted.getD i default).bt)
  let resultData := List.insertionSort (fun a b : RRow => a.id ≤ b.id)
    (sorted.enum.map (fun ip =>
      { id := ip.2.id, at' := ip.2.at', bt := ip.2.bt
        ct := final.completion.getD ip.1 0
        tat := tat.getD ip.1 0
        wt := wt.getD ip.1 0
        rt := final.firstResponse.getD ip.1 0 }))
  let totalBurst := (sorted.map (·.bt)).sum
  let totalTime : ℤ := ((final.gantt.getLast?).map (·.stop)).getD 0
  { resultData := resultData
    gantt := final.gantt
    cs := countSwitches final.gantt
    avgTat := jsDiv ((tat.sum : ℤ) : ℚ) (n : ℚ)
    avgWt := jsDiv ((wt.sum : ℤ) : ℚ) (n : ℚ)
    cpuUtil := if totalTime = 0 then "0.00"
      else jsToFixed 2 (((totalBurst : ℚ) / (totalTime : ℚ)) * 100)
    throughput := if totalTime = 0 then "0.000"
      else jsToFixed 3 ((n : ℚ) / (totalTime : ℚ))
    totalTime := totalTime }

/-- The `forEach` of `fcfsScheduler` (lines 112–117): run each process in
arrival order, fast-forwarding the clock over idle gaps. -/
def fcfsGantt : ℤ → List Proc → List Seg
  | _, [] => []
  | time, p :: rest =>
    let start := if time < p.at' then p.at' else time
    ⟨pidStr p.id, start, start + p.bt⟩ :: fcfsGantt (start + p.bt) rest

/-- Source function `fcfsScheduler(procs)` (lines 108–134). -/
def fcfsScheduler (procs : List Proc) : RRResult :=
  let sorted := sortByArrival procs
  let n := sorted.length
  let gantt := fcfsGantt 0 sorted
  let resultData := List.insertionSort (fun a b : RRow => a.id ≤ b.id)
    (sorted.enum.map (fun ip =>
      let ct := (gantt.getD ip.1 default).stop
      let tat := ct - ip.2.at'
      let wt := tat - ip.2.bt
      { id := ip.2.id, at' := ip.2.at', bt := ip.2.bt
        ct := ct, tat := tat, wt := wt, rt := wt }))
  let totalBurst := (procs.map (·.bt)).sum
  let totalTime : ℤ := ((gantt.getLast?).map (·.stop)).getD 0
  { resultData := resultData
    gantt := gantt
    cs := countSwitches gantt
    avgTat := jsDiv (((resultData.map (·.tat)).sum : ℤ) : ℚ) (n : ℚ)
    avgWt := jsDiv (((resultData.map (·.wt)).sum : ℤ) : ℚ) (n : ℚ)
    cpuUtil := if totalTime = 0 then "0.00"
      else jsToFixed 2 (((totalBurst : ℚ) / (totalTime : ℚ)) * 100)
    throughput := if totalTime = 0 then "0.000"
      else jsToFixed 3 ((n : ℚ) / (totalTime : ℚ))
    totalTime := totalTime }

/-- Model of the spread call of `Math.max`; `none` models the `-Infinity` returned on an empty
argument list. -/
def jsMathMax (l : List ℤ) : Option ℤ :=
  l.foldl (fun m x => match m with | none => some x | some y => some (max y x)) none

/-- The sweep bound `maxQ = Math.max(2, maxBt + 3)` of `AnalyzeView` (lines 369–370); on an
empty process set `maxBt = -Infinity`, `-Infinity + 3 = -Infinity`, and
`Math.max(2, -Infinity) = 2`. -/
def maxQOf (ps : List Proc) : ℤ :=
  match jsMathMax (ps.map (·.bt)) with
  | none => 2
  | some m => max 2 (m + 3)

/-- The sweep's quantum list, built by `Array.from` with length `maxQ - 1` and values `i + 1`
(line 371).  `Int.toNat` models the ToLength clamp on the `length`
property. -/
def qValuesOf (ps : List Proc) : List ℤ :=
  (List.range (maxQOf ps - 1).toNat).map (fun (i : ℕ) => (i : ℤ) + 1)

/-- One point of the quantum sweep with `q, awt, atat, cs` (line 374). -/
structure SweepPoint where
  q : ℤ
  awt : Option ℚ
  atat : Option ℚ
  cs : ℕ
deriving DecidableEq, Repr, Inhabited

/-- The sweep table `points` (lines 372–375). -/
def sweepPoints (ps : List Proc) : List SweepPoint :=
  (qValuesOf ps).map (fun q =>
    let r := roundRobin ps q
    { q := q, awt := r.avgWt, atat := r.avgTat, cs := r.cs })

/-- JavaScript less-than on possibly-`NaN` values: any comparison with `NaN`
(modelled `none`) is `false`. -/
def jsLtO (a b : Option ℚ) : Bool :=
  match a, b with
  | some x, some y => decide (x < y)
  | _, _ => false

/-- The sweep optimum `minAwtPoint`, a `reduce` over `points` keeping `p` when
`p.awt < m.awt`, started from the first point (line 376). -/
def minAwtPoint (ps : List Proc) : SweepPoint :=
  (sweepPoints ps).foldl (fun m p => if jsLtO p.awt m.awt then p else m)
    ((sweepPoints ps).headD ⟨0, none, none, 0⟩)

/-- The caller-visible effect of `roundRobin`: the result together with
the caller's array after the call.  Line 41 copies the array
(`[...procs]`) before sorting, and the engine writes only to its own
locally allocated arrays (`remaining`, `completion`, `firstResponse`,
`queue`, `visited`, `gantt`) and builds `resultData` rows with object
spreads (`{ ...p, ... }`), so no statement of the source assigns to the
caller's array or to any of its `Proc` records. -/
def callRoundRobin (procs : List Proc) (q : ℤ) : RRResult × List Proc :=
  (roundRobin procs q, procs)

/-- The caller-visible effect of `fcfsScheduler` (line 109 copies the
array before sorting; the engine only reads the records). -/
def callFcfs (procs : List Proc) : RRResult × List Proc :=
  (fcfsScheduler procs, procs)

/-- The error taxonomy of the specification's interface contract
(spec §6–§7).  The source defines no such errors; these are used to state
how the specified contract compares with the code. -/
inductive SchedError where
  | EmptyInput
  | InvalidQuantum
  | InvalidRange
  | InvalidProcess
deriving DecidableEq, Repr

/-- Modelled from the spec: `simulateRoundRobin(processes, quantum)`
"fails with `InvalidQuantum` if `quantum < 1`, fails with `EmptyInput` if
`processes` is empty" (spec §6).  Stated for comparison with the source's
`roundRobin`, which performs no validation. -/
def specSimulateRoundRobin (procs : List Proc) (q : ℤ) :
    Except SchedError RRResult :=
  if q < 1 then .error .InvalidQuantum
  else if procs = [] then .error .EmptyInput
  else .ok (roundRobin procs q)

/-- Modelled from the spec: `simulateFCFS(processes)` "fails with
`EmptyInput` if empty" (spec §6). -/
def specSimulateFCFS (procs : List Proc) : Except SchedError RRResult :=
  if procs = [] then .error .EmptyInput
  else .ok (fcfsScheduler procs)

/-! ## List helper lemmas -/

lemma getD_set_self {α : Type} {l : List α} {i : ℕ} (h : i < l.length)
    (a d : α) : (l.set i a).getD i d = a := by
  simp [List.getD_eq_getElem?_getD, List.getElem?_set_self', h]

lemma getD_set_ne {α : Type} {l : List α} {i j : ℕ} (h : i ≠ j) (a d : α) :
    (l.set i a).getD j d = l.getD j d := by
  simp [List.getD_eq_getElem?_getD, List.getElem?_set_ne h]

lemma getD_mem {α : Type} {l : List α} {i : ℕ} (h : i < l.length) (d : α) :
    l.getD i d ∈ l := by
  rw [List.getD_eq_getElem l d h]; exact List.getElem_mem h

lemma getD_map_bt {ps : List Proc} {j : ℕ} (h : j < ps.length) :
    (ps.map (·.bt)).getD j 0 = (ps.getD j default).bt := by
  rw [List.getD_eq_getElem _ 0 (by simpa using h), List.getD_eq_getElem _ _ h]
  simp

lemma sum_set_add : ∀ (l : List ℤ) (i : ℕ), i < l.length → ∀ a : ℤ,
    (l.set i a).sum + l.getD i 0 = l.sum + a
  | [], i, h, a => absurd h (by simp)
  | x :: xs, 0, _, a => by simp [List.getD_cons_zero]; ring
  | x :: xs, i + 1, h, a => by
    have ih := sum_set_add xs i (by simpa using h) a
    simp only [List.set_cons_succ, List.sum_cons, List.getD_cons_succ]
    linarith

lemma mapsum_set (f : ℤ → ℕ) : ∀ (l : List ℤ) (i : ℕ), i < l.length → ∀ a : ℤ,
    ((l.set i a).map f).sum + f (l.getD i 0) = (l.map f).sum + f a
  | [], i, h, a => absurd h (by simp)
  | x :: xs, 0, _, a => by simp [List.getD_cons_zero]; ring
  | x :: xs, i + 1, h, a => by
    have ih := mapsum_set f xs i (by simpa using h) a
    simp only [List.set_cons_succ, List.map_cons, List.sum_cons, List.getD_cons_succ]
    omega

lemma sum_eq_zero_of_getD {l : List ℤ}
    (h : ∀ j < l.length, l.getD j 0 = 0) : l.sum = 0 := by
  apply List.sum_eq_zero
  intro x hx
  obtain ⟨j, hj, rfl⟩ := List.mem_iff_getElem.mp hx
  have := h j hj
  rwa [List.getD_eq_getElem _ 0 hj] at this

/-! ## `scanEnqueue` lemmas -/

lemma scanEnqueue_fst_pos {cond : ℕ → Bool} {j : ℕ} {js : List ℕ} {vis : List Bool}
    (h : (cond j && !(vis.getD j false)) = true) :
    (scanEnqueue cond (j :: js) vis).1 =
      j :: (scanEnqueue cond js (vis.set j true)).1 := by
  rw [scanEnqueue, if_pos h]

lemma scanEnqueue_snd_pos {cond : ℕ → Bool} {j : ℕ} {js : List ℕ} {vis : List Bool}
    (h : (cond j && !(vis.getD j false)) = true) :
    (scanEnqueue cond (j :: js) vis).2 =
      (scanEnqueue cond js (vis.set j true)).2 := by
  rw [scanEnqueue, if_pos h]

lemma scanEnqueue_cons_neg {cond : ℕ → Bool} {j : ℕ} {js : List ℕ} {vis : List Bool}
    (h : ¬(cond j && !(vis.getD j false)) = true) :
    scanEnqueue cond (j :: js) vis = scanEnqueue cond js vis := by
  rw [scanEnqueue, if_neg h]

lemma scanEnqueue_vis_length (cond : ℕ → Bool) :
    ∀ (js : List ℕ) (vis : List Bool),
      ((scanEnqueue cond js vis).2).length = vis.length
  | [], _ => rfl
  | j :: js, vis => by
    by_cases h : (cond j && !(vis.getD j false)) = true
    · rw [scanEnqueue_snd_pos h, scanEnqueue_vis_length cond js]
      simp
    · rw [scanEnqueue_cons_neg h]
      exact scanEnqueue_vis_length cond js vis

lemma scanEnqueue_sublist (cond : ℕ → Bool) :
    ∀ (js : List ℕ) (vis : List Bool),
      List.Sublist (scanEnqueue cond js vis).1 js
  | [], _ => by simp [scanEnqueue]
  | j :: js, vis => by
    by_cases h : (cond j && !(vis.getD j false)) = true
    · rw [scanEnqueue_fst_pos h]
      exact (scanEnqueue_sublist cond js _).cons₂ j
    · rw [scanEnqueue_cons_neg h]
      exact (scanEnqueue_sublist cond js vis).cons j

lemma scanEnqueue_vis_mono (cond : ℕ → Bool) :
    ∀ (js : List ℕ) (vis : List Bool) (k : ℕ), vis.getD k false = true →
      (scanEnqueue cond js vis).2.getD k false = true
  | [], _, _, hk => hk
  | j :: js, vis, k, hk => by
    by_cases h : (cond j && !(vis.getD j false)) = true
    · rw [scanEnqueue_snd_pos h]
      apply scanEnqueue_vis_mono cond js
      by_cases hjk : j = k
      · subst hjk
        rcases Nat.lt_or_ge j vis.length with hl | hl
        · exact getD_set_self hl true false
        · rw [List.set_eq_of_length_le (by omega)]
          exact hk
      · rwa [getD_set_ne hjk]
    · rw [scanEnqueue_cons_neg h]
      exact scanEnqueue_vis_mono cond js vis k hk

lemma scanEnqueue_vis_of_not_mem (cond : ℕ → Bool) :
    ∀ (js : List ℕ) (vis : List Bool) (k : ℕ),
      k ∉ (scanEnqueue cond js vis).1 →
      (scanEnqueue cond js vis).2.getD k false = vis.getD k false
  | [], _, _, _ => rfl
  | j :: js, vis, k, hk => by
    by_cases h : (cond j && !(vis.getD j false)) = true
    · rw [scanEnqueue_fst_pos h] at hk
      rw [scanEnqueue_snd_pos h]
      have hne : j ≠ k := fun he => hk (he ▸ List.mem_cons_self j _)
      have hk' : k ∉ (scanEnqueue cond js (vis.set j true)).1 :=
        fun hm => hk (List.mem_cons_of_mem j hm)
      rw [scanEnqueue_vis_of_not_mem cond js _ k hk', getD_set_ne hne]
    · rw [scanEnqueue_cons_neg h] at hk ⊢
      exact scanEnqueue_vis_of_not_mem cond js vis k hk

lemma scanEnqueue_vis_of_mem (cond : ℕ → Bool) :
    ∀ (js : List ℕ) (vis : List Bool) (k : ℕ), k < vis.length →
      k ∈ (scanEnqueue cond js vis).1 →
      (scanEnqueue cond js vis).2.getD k false = true
  | [], _, _, _, hk => by simp [scanEnqueue] at hk
  | j :: js, vis, k, hlen, hk => by
    by_cases h : (cond j && !(vis.getD j false)) = true
    · rw [scanEnqueue_fst_pos h] at hk
      rw [scanEnqueue_snd_pos h]
      rcases List.mem_cons.mp hk with he | hm
      · subst he
        exact scanEnqueue_vis_mono cond js _ k (getD_set_self hlen true false)
      · exact scanEnqueue_vis_of_mem cond js _ k (by simpa using hlen) hm
    · rw [scanEnqueue_cons_neg h] at hk ⊢
      exact scanEnqueue_vis_of_mem cond js vis k hlen hk

lemma scanEnqueue_mem_iff (cond : ℕ → Bool) :
    ∀ (js : List ℕ) (vis : List Bool), js.Nodup → ∀ k : ℕ,
      (k ∈ (scanEnqueue cond js vis).1 ↔
        k ∈ js ∧ cond k = true ∧ vis.getD k false = false)
  | [], vis, _, k => by simp [scanEnqueue]
  | j :: js, vis, hnd, k => by
    have hj : j ∉ js := (List.nodup_cons.mp hnd).1
    have hnd' : js.Nodup := (List.nodup_cons.mp hnd).2
    by_cases h : (cond j && !(vis.getD j false)) = true
    · obtain ⟨hcj, hvj⟩ := Bool.and_eq_true_iff.mp h
      have hvj' : vis.getD j false = false := by simpa using hvj
      rw [scanEnqueue_fst_pos h]
      by_cases hjk : k = j
      · subst hjk
        constructor
        · intro _
          exact ⟨List.mem_cons_self _ _, hcj, hvj'⟩
        · intro _
          exact List.mem_cons_self _ _
      · rw [List.mem_cons, or_iff_right hjk,
          scanEnqueue_mem_iff cond js _ hnd' k,
          getD_set_ne (fun he => hjk he.symm),
          List.mem_cons, or_iff_right hjk]
    · rw [scanEnqueue_cons_neg h,
        scanEnqueue_mem_iff cond js vis hnd' k]
      constructor
      · rintro ⟨hm, hc, hv⟩
        exact ⟨List.mem_cons_of_mem _ hm, hc, hv⟩
      · rintro ⟨hm, hc, hv⟩
        rcases List.mem_cons.mp hm with he | hm'
        · subst he
          exfalso
          rw [hc, hv] at h
          simp at h
        · exact ⟨hm', hc, hv⟩

/-! ## The main-loop invariant -/

lemma getD_replicate_false (n k : ℕ) : (List.replicate n false).getD k false = false := by
  rcases Nat.lt_or_ge k n with h | h
  · rw [List.getD_eq_getElem _ _ (by simpa using h)]
    simp
  · rw [List.getD_eq_default _ _ (by simpa using h)]

/-- Everything the loop body preserves on its own, i.e. the invariant of
lines 58–87 except for the clause restored by the gap-filling step. -/
structure LoopInv0 (ps : List Proc) (s : SimState) : Prop where
  lenRem : s.remaining.length = ps.length
  lenVis : s.visited.length = ps.length
  queueLt : ∀ i ∈ s.queue, i < ps.length
  queueVis : ∀ i ∈ s.queue, s.visited.getD i false = true
  queuePos : ∀ i ∈ s.queue, 0 < s.remaining.getD i 0
  queueNodup : s.queue.Nodup
  unvisRem : ∀ j < ps.length, s.visited.getD j false = false →
    s.remaining.getD j 0 = (ps.getD j default).bt
  remNonneg : ∀ j, 0 ≤ s.remaining.getD j 0
  ganttChain : List.Chain' (fun a b => a.stop ≤ b.start) s.gantt
  ganttPos : ∀ g ∈ s.gantt, g.start < g.stop
  ganttLeTime : ∀ g ∈ s.gantt, g.stop ≤ s.time
  conserve : durSum s.gantt + s.remaining.sum = (ps.map (·.bt)).sum
  visComp : ∀ j < ps.length, s.visited.getD j false = true →
    0 < s.remaining.getD j 0 → j ∈ s.queue

/-- The full loop invariant: additionally, an empty queue means every
process has completed. -/
structure LoopInv (ps : List Proc) (s : SimState) extends LoopInv0 ps s : Prop where
  emptyDone : s.queue = [] → ∀ j < ps.length, s.remaining.getD j 0 = 0

/-- Total remaining CPU time, the loop's termination measure. -/
def measureRR (s : SimState) : ℕ := (s.remaining.map Int.toNat).sum

lemma inv_initState (ps : List Proc) (hbt : ∀ p ∈ ps, 0 < p.bt) :
    LoopInv ps (initState ps) := by
  have hnd := List.nodup_range ps.length
  set time0 := ((ps.head?).map (·.at')).getD 0 with htime0
  set cond := fun j => decide ((ps.getD j default).at' ≤ time0) with hcond
  have hsc : initScan ps time0 (List.replicate ps.length false) =
      scanEnqueue cond (List.range ps.length) (List.replicate ps.length false) := rfl
  set scan := scanEnqueue cond (List.range ps.length) (List.replicate ps.length false)
    with hscan
  have hmem : ∀ k, k ∈ scan.1 ↔ k < ps.length ∧ cond k = true := by
    intro k
    rw [hscan, scanEnqueue_mem_iff cond _ _ hnd k, List.mem_range]
    simp [getD_replicate_false]
  have hlenV : scan.2.length = ps.length := by
    rw [hscan, scanEnqueue_vis_length]
    simp
  have hvisMem : ∀ k, k < ps.length → k ∈ scan.1 → scan.2.getD k false = true := by
    intro k hk hkm
    rw [hscan]
    exact scanEnqueue_vis_of_mem cond _ _ k (by simpa using hk) hkm
  have hvisNot : ∀ k, k ∉ scan.1 → scan.2.getD k false = false := by
    intro k hk
    rw [hscan, scanEnqueue_vis_of_not_mem cond _ _ k hk, getD_replicate_false]
  have hrem : ∀ j, j < ps.length → (ps.map (·.bt)).getD j 0 = (ps.getD j default).bt :=
    fun j hj => getD_map_bt hj
  have hstate : initState ps =
      ⟨ps.map (·.bt), List.replicate ps.length 0, List.replicate ps.length (-1),
        time0, scan.1, scan.2, []⟩ := rfl
  rw [hstate]
  refine ⟨⟨?_, ?_, ?_, ?_, ?_, ?_, ?_, ?_, ?_, ?_, ?_, ?_, ?_⟩, ?_⟩
  · simp
  · exact hlenV
  · intro i hi
    exact ((hmem i).mp hi).1
  · intro i hi
    exact hvisMem i ((hmem i).mp hi).1 hi
  · intro i hi
    rw [hrem i ((hmem i).mp hi).1]
    exact hbt _ (getD_mem ((hmem i).mp hi).1 default)
  · exact hnd.sublist (scanEnqueue_sublist cond _ _)
  · intro j hj _
    exact hrem j hj
  · intro j
    rcases Nat.lt_or_ge j ps.length with h | h
    · rw [hrem j h]
      exact le_of_lt (hbt _ (getD_mem h default))
    · rw [List.getD_eq_default _ _ (by simpa using h)]
  · simp
  · simp
  · simp
  · simp [durSum]
  · intro j hj hv _
    by_contra hjm
    rw [hvisNot j hjm] at hv
    simp at hv
  · intro hq0 j hj
    exfalso
    obtain ⟨p, tl, rfl⟩ : ∃ p tl, ps = p :: tl := by
      cases ps with
      | nil => simp at hj
      | cons p tl => exact ⟨p, tl, rfl⟩
    have h0 : 0 ∈ scan.1 := by
      rw [hmem 0]
      refine ⟨by simp, ?_⟩
      rw [hcond]
      simp [htime0]
    have hq0' : scan.1 = [] := hq0
    rw [hq0'] at h0
    simp at h0

lemma stepCore_inv (ps : List Proc) (q : ℤ) (rem comp fr : List ℤ) (time : ℤ)
    (i : ℕ) (rest : List ℕ) (vis : List Bool) (g : List Seg)
    (hq : 1 ≤ q)
    (hs : LoopInv0 ps ⟨rem, comp, fr, time, i :: rest, vis, g⟩) :
    LoopInv0 ps (stepCore ps q ⟨rem, comp, fr, time, i :: rest, vis, g⟩) ∧
    measureRR (stepCore ps q ⟨rem, comp, fr, time, i :: rest, vis, g⟩) <
      measureRR ⟨rem, comp, fr, time, i :: rest, vis, g⟩ := by
  obtain ⟨lenRem, lenVis, queueLt, queueVis, queuePos, queueNodup, unvisRem,
    remNonneg, ganttChain, ganttPos, ganttLeTime, conserve, visComp⟩ := hs
  have hiLt : i < ps.length := queueLt i (List.mem_cons_self _ _)
  have hremiPos : 0 < rem.getD i 0 := queuePos i (List.mem_cons_self _ _)
  have hvisi : vis.getD i false = true := queueVis i (List.mem_cons_self _ _)
  have hiRest : i ∉ rest := (List.nodup_cons.mp queueNodup).1
  have hrestNd : rest.Nodup := (List.nodup_cons.mp queueNodup).2
  have hndr := List.nodup_range ps.length
  set runTime := min (rem.getD i 0) q with hrunTime
  have hrtPos : 0 < runTime := lt_min hremiPos (by omega)
  have hrtLe : runTime ≤ rem.getD i 0 := min_le_left _ _
  set stop := time + runTime with hstopdef
  set rem' := rem.set i (rem.getD i 0 - runTime) with hremdef
  set scan := arrivalScan ps stop rem' vis with hscandef
  have hstep : stepCore ps q ⟨rem, comp, fr, time, i :: rest, vis, g⟩ =
      ⟨rem',
       (if 0 < rem'.getD i 0 then comp else comp.set i stop),
       (if fr.getD i 0 = -1 then fr.set i (time - (ps.getD i default).at') else fr),
       stop,
       (if 0 < rem'.getD i 0 then rest ++ scan.1 ++ [i] else rest ++ scan.1),
       scan.2,
       g ++ [⟨pidStr (ps.getD i default).id, time, stop⟩]⟩ := rfl
  have hlenRem' : rem'.length = ps.length := by
    rw [hremdef]
    simpa using lenRem
  have hremi' : rem'.getD i 0 = rem.getD i 0 - runTime := by
    rw [hremdef]
    exact getD_set_self (by rw [lenRem]; exact hiLt) _ _
  have hremo' : ∀ j, j ≠ i → rem'.getD j 0 = rem.getD j 0 := by
    intro j hj
    rw [hremdef]
    exact getD_set_ne (fun he => hj he.symm) _ _
  have hremNonneg' : ∀ j, 0 ≤ rem'.getD j 0 := by
    intro j
    by_cases hj : j = i
    · subst hj
      rw [hremi']
      omega
    · rw [hremo' j hj]
      exact remNonneg j
  have hscanMem : ∀ k, k ∈ scan.1 ↔ (k < ps.length ∧ (ps.getD k default).at' ≤ stop ∧
      0 < rem'.getD k 0 ∧ vis.getD k false = false) := by
    intro k
    rw [hscandef]
    unfold arrivalScan
    rw [scanEnqueue_mem_iff _ _ _ hndr k, List.mem_range]
    simp only [Bool.and_eq_true, decide_eq_true_eq, Bool.not_eq_true']
    tauto
  have hlenVis' : scan.2.length = ps.length := by
    rw [hscandef]
    unfold arrivalScan
    rw [scanEnqueue_vis_length]
    exact lenVis
  have hvismono : ∀ k, vis.getD k false = true → scan.2.getD k false = true := by
    intro k hk
    rw [hscandef]
    unfold arrivalScan
    exact scanEnqueue_vis_mono _ _ _ _ hk
  have hvisOfMem : ∀ k, k < ps.length → k ∈ scan.1 → scan.2.getD k false = true := by
    intro k hk hkm
    rw [hscandef] at hkm ⊢
    unfold arrivalScan at hkm ⊢
    exact scanEnqueue_vis_of_mem _ _ _ _ (by rw [lenVis]; exact hk) hkm
  have hvisNotMem : ∀ k, k ∉ scan.1 → scan.2.getD k false = vis.getD k false := by
    intro k hk
    rw [hscandef] at hk ⊢
    unfold arrivalScan at hk ⊢
    exact scanEnqueue_vis_of_not_mem _ _ _ _ hk
  have hscanNd : scan.1.Nodup := by
    refine hndr.sublist ?_
    rw [hscandef]
    unfold arrivalScan
    exact scanEnqueue_sublist _ _ _
  have hiScan : i ∉ scan.1 := by
    intro hmem
    have h2 := ((hscanMem i).mp hmem).2.2.2
    rw [hvisi] at h2
    exact absurd h2 (by simp)
  have hvisFalse : ∀ k, scan.2.getD k false = false → vis.getD k false = false := by
    intro k hk
    cases hv : vis.getD k false
    · rfl
    · rw [hvismono k hv] at hk
      exact absurd hk (by simp)
  have hqmem : ∀ k, k ∈ (if 0 < rem'.getD i 0 then rest ++ scan.1 ++ [i] else rest ++ scan.1) →
      k ∈ rest ∨ k ∈ scan.1 ∨ (k = i ∧ 0 < rem'.getD i 0) := by
    intro k hk
    by_cases hfin : 0 < rem'.getD i 0
    · rw [if_pos hfin] at hk
      rcases List.mem_append.mp hk with h1 | h1
      · rcases List.mem_append.mp h1 with h2 | h2
        · exact Or.inl h2
        · exact Or.inr (Or.inl h2)
      · exact Or.inr (Or.inr ⟨by simpa using h1, hfin⟩)
    · rw [if_neg hfin] at hk
      rcases List.mem_append.mp hk with h1 | h1
      · exact Or.inl h1
      · exact Or.inr (Or.inl h1)
  have hqmemRest : ∀ k ∈ rest,
      k ∈ (if 0 < rem'.getD i 0 then rest ++ scan.1 ++ [i] else rest ++ scan.1) := by
    intro k hk
    by_cases hfin : 0 < rem'.getD i 0
    · rw [if_pos hfin]
      exact List.mem_append_left _ (List.mem_append_left _ hk)
    · rw [if_neg hfin]
      exact List.mem_append_left _ hk
  have hqmemScan : ∀ k ∈ scan.1,
      k ∈ (if 0 < rem'.getD i 0 then rest ++ scan.1 ++ [i] else rest ++ scan.1) := by
    intro k hk
    by_cases hfin : 0 < rem'.getD i 0
    · rw [if_pos hfin]
      exact List.mem_append_left _ (List.mem_append_right _ hk)
    · rw [if_neg hfin]
      exact List.mem_append_right _ hk
  have hqmemI : 0 < rem'.getD i 0 →
      i ∈ (if 0 < rem'.getD i 0 then rest ++ scan.1 ++ [i] else rest ++ scan.1) := by
    intro hfin
    rw [if_pos hfin]
    exact List.mem_append_right _ (List.mem_singleton_self i)
  rw [hstep]
  refine ⟨⟨?_, ?_, ?_, ?_, ?_, ?_, ?_, ?_, ?_, ?_, ?_, ?_, ?_⟩, ?_⟩
  · exact hlenRem'
  · exact hlenVis'
  · intro k hk
    rcases hqmem k hk with h | h | ⟨he, _⟩
    · exact queueLt k (List.mem_cons_of_mem _ h)
    · exact ((hscanMem k).mp h).1
    · exact he ▸ hiLt
  · intro k hk
    rcases hqmem k hk with h | h | ⟨he, _⟩
    · exact hvismono k (queueVis k (List.mem_cons_of_mem _ h))
    · exact hvisOfMem k ((hscanMem k).mp h).1 h
    · exact he ▸ hvismono i hvisi
  · intro k hk
    rcases hqmem k hk with h | h | ⟨he, hfin⟩
    · have hki : k ≠ i := fun he => hiRest (he ▸ h)
      rw [hremo' k hki]
      exact queuePos k (List.mem_cons_of_mem _ h)
    · exact ((hscanMem k).mp h).2.2.1
    · exact he ▸ hfin
  · have hdisjRS : rest.Disjoint scan.1 := by
      intro k hk hks
      have h1 := queueVis k (List.mem_cons_of_mem _ hk)
      have h2 := ((hscanMem k).mp hks).2.2.2
      rw [h1] at h2
      exact absurd h2 (by simp)
    have nd2 : (rest ++ scan.1).Nodup := hrestNd.append hscanNd hdisjRS
    show (if 0 < rem'.getD i 0 then rest ++ scan.1 ++ [i] else rest ++ scan.1).Nodup
    by_cases hfin : 0 < rem'.getD i 0
    · rw [if_pos hfin]
      refine nd2.append (List.nodup_singleton i) ?_
      intro k hk hki
      have he : k = i := by simpa using hki
      subst he
      rcases List.mem_append.mp hk with h | h
      · exact hiRest h
      · exact hiScan h
    · rw [if_neg hfin]
      exact nd2
  · intro j hj hvf
    have hvo : vis.getD j false = false := hvisFalse j hvf
    have hji : j ≠ i := by
      intro he
      rw [he, hvisi] at hvo
      exact absurd hvo (by simp)
    rw [hremo' j hji]
    exact unvisRem j hj hvo
  · exact hremNonneg'
  · rw [List.chain'_append]
    refine ⟨ganttChain, List.chain'_singleton _, ?_⟩
    intro x hx y hy
    have hxg : x ∈ g := List.mem_of_mem_getLast? hx
    have hyy : (⟨pidStr (ps.getD i default).id, time, stop⟩ : Seg) = y := by
      simpa using hy
    subst hyy
    exact ganttLeTime x hxg
  · intro seg hseg
    rcases List.mem_append.mp hseg with h | h
    · exact ganttPos seg h
    · have he : seg = ⟨pidStr (ps.getD i default).id, time, stop⟩ := by simpa using h
      subst he
      show time < stop
      rw [hstopdef]
      omega
  · intro seg hseg
    rcases List.mem_append.mp hseg with h | h
    · have h1 := ganttLeTime seg h
      have h2 : time ≤ stop := by rw [hstopdef]; omega
      exact le_trans h1 h2
    · have he : seg = ⟨pidStr (ps.getD i default).id, time, stop⟩ := by simpa using h
      subst he
      exact le_refl _
  · have hsum' : rem'.sum = rem.sum - runTime := by
      have h := sum_set_add rem i (by rw [lenRem]; exact hiLt) (rem.getD i 0 - runTime)
      rw [← hremdef] at h
      omega
    have hdur : durSum (g ++ [⟨pidStr (ps.getD i default).id, time, stop⟩]) =
        durSum g + runTime := by
      simp only [durSum, List.map_append, List.sum_append, List.map_cons,
        List.map_nil, List.sum_cons, List.sum_nil]
      rw [hstopdef]
      ring
    show durSum (g ++ [⟨pidStr (ps.getD i default).id, time, stop⟩]) + rem'.sum =
      (ps.map (·.bt)).sum
    rw [hdur, hsum']
    have hc : durSum g + rem.sum = (ps.map (·.bt)).sum := conserve
    omega
  · intro j hj hv hr
    cases hvo : vis.getD j false
    · have hjs : j ∈ scan.1 := by
        by_contra hns
        rw [hvisNotMem j hns, hvo] at hv
        exact absurd hv (by simp)
      exact hqmemScan j hjs
    · by_cases hji : j = i
      · subst hji
        exact hqmemI hr
      · have hpos : 0 < rem.getD j 0 := by
          rw [← hremo' j hji]
          exact hr
        have hjq := visComp j hj hvo hpos
        rcases List.mem_cons.mp hjq with he | hm
        · exact absurd he hji
        · exact hqmemRest j hm
  · have h := mapsum_set Int.toNat rem i (by rw [lenRem]; exact hiLt)
      (rem.getD i 0 - runTime)
    rw [← hremdef] at h
    show (rem'.map Int.toNat).sum < (rem.map Int.toNat).sum
    omega

lemma gapFill_inv (ps : List Proc) (t : SimState) (h : LoopInv0 ps t) :
    LoopInv ps (gapFill ps t) ∧ (gapFill ps t).remaining = t.remaining := by
  unfold gapFill
  by_cases hq : t.queue = []
  · rw [if_pos hq]
    cases hfind : (List.range ps.length).find?
        (fun k => decide (0 < t.remaining.getD k 0) && !(t.visited.getD k false)) with
    | none =>
      refine ⟨⟨h, ?_⟩, rfl⟩
      intro _ j hj
      have hnone := List.find?_eq_none.mp hfind j (List.mem_range.mpr hj)
      simp only [Bool.and_eq_true, decide_eq_true_eq, Bool.not_eq_true',
        not_and] at hnone
      by_contra hne
      have hpos : 0 < t.remaining.getD j 0 :=
        lt_of_le_of_ne (h.remNonneg j) (fun he => hne he.symm)
      have hvis : t.visited.getD j false = true := by
        cases hv : t.visited.getD j false
        · exact absurd hv (by simpa using hnone hpos)
        · rfl
      have := h.visComp j hj hvis hpos
      rw [hq] at this
      simp at this
    | some k =>
      have hkr : k ∈ List.range ps.length := List.mem_of_find?_eq_some hfind
      have hkLt : k < ps.length := List.mem_range.mp hkr
      have hkp := List.find?_some hfind
      simp only [Bool.and_eq_true, decide_eq_true_eq, Bool.not_eq_true'] at hkp
      obtain ⟨hkpos, hkvis⟩ := hkp
      obtain ⟨lenRem, lenVis, queueLt, queueVis, queuePos, queueNodup, unvisRem,
        remNonneg, ganttChain, ganttPos, ganttLeTime, conserve, visComp⟩ := h
      refine ⟨⟨⟨?_, ?_, ?_, ?_, ?_, ?_, ?_, ?_, ?_, ?_, ?_, ?_, ?_⟩, ?_⟩, rfl⟩
      · exact lenRem
      · simpa using lenVis
      · intro j hj
        have he : j = k := by simpa using hj
        exact he ▸ hkLt
      · intro j hj
        have he : j = k := by simpa using hj
        subst he
        exact getD_set_self (by rw [lenVis]; exact hkLt) _ _
      · intro j hj
        have he : j = k := by simpa using hj
        exact he ▸ hkpos
      · exact List.nodup_singleton k
      · intro j hj hvf
        have hjk : j ≠ k := by
          intro he
          subst he
          rw [getD_set_self (by rw [lenVis]; exact hkLt) _ _] at hvf
          exact absurd hvf (by simp)
        rw [getD_set_ne (fun he => hjk he.symm) _ _] at hvf
        exact unvisRem j hj hvf
      · exact remNonneg
      · exact ganttChain
      · exact ganttPos
      · intro seg hseg
        exact le_trans (ganttLeTime seg hseg) (le_max_left _ _)
      · exact conserve
      · intro j hj hvt hpos
        by_cases hjk : j = k
        · subst hjk
          simp
        · rw [getD_set_ne (fun he => hjk he.symm) _ _] at hvt
          have := visComp j hj hvt hpos
          rw [hq] at this
          simp at this
      · intro hcon
        exact absurd hcon (by simp)
  · rw [if_neg hq]
    exact ⟨⟨h, fun he => absurd he hq⟩, rfl⟩

lemma stepRR_inv (ps : List Proc) (q : ℤ) (s : SimState) (i : ℕ) (rest : List ℕ)
    (hq : 1 ≤ q) (hs : LoopInv0 ps s) (hque : s.queue = i :: rest) :
    LoopInv ps (stepRR ps q s) ∧ measureRR (stepRR ps q s) < measureRR s := by
  obtain ⟨rem, comp, fr, time, queue, vis, g⟩ := s
  have hq' : queue = i :: rest := hque
  subst hq'
  have hcore := stepCore_inv ps q rem comp fr time i rest vis g hq hs
  have hgap := gapFill_inv ps _ hcore.1
  refine ⟨hgap.1, ?_⟩
  have hrem_eq : (gapFill ps (stepCore ps q ⟨rem, comp, fr, time, i :: rest, vis, g⟩)).remaining =
      (stepCore ps q ⟨rem, comp, fr, time, i :: rest, vis, g⟩).remaining := hgap.2
  show measureRR (gapFill ps (stepCore ps q ⟨rem, comp, fr, time, i :: rest, vis, g⟩)) <
    measureRR ⟨rem, comp, fr, time, i :: rest, vis, g⟩
  unfold measureRR
  rw [hrem_eq]
  exact hcore.2

lemma runRR_term (ps : List Proc) (q : ℤ) (hq : 1 ≤ q) :
    ∀ (fuel : ℕ) (s : SimState), LoopInv ps s → measureRR s ≤ fuel →
      LoopInv ps (runRR ps q fuel s) ∧ (runRR ps q fuel s).queue = []
  | 0, s, hI, hm => by
    have hq0 : s.queue = [] := by
      cases hque : s.queue with
      | nil => rfl
      | cons i rest =>
        exfalso
        have hiLt : i < ps.length := hI.queueLt i (by rw [hque]; exact List.mem_cons_self _ _)
        have hpos : 0 < s.remaining.getD i 0 :=
          hI.queuePos i (by rw [hque]; exact List.mem_cons_self _ _)
        have hmem : s.remaining.getD i 0 ∈ s.remaining :=
          getD_mem (by rw [hI.lenRem]; exact hiLt) 0
        have hle : (s.remaining.getD i 0).toNat ≤ measureRR s :=
          List.single_le_sum (by simp) _ (List.mem_map_of_mem _ hmem)
        omega
    exact ⟨hI, hq0⟩
  | fuel + 1, s, hI, hm => by
    by_cases hq0 : s.queue = []
    · rw [runRR, if_pos hq0]
      exact ⟨hI, hq0⟩
    · rw [runRR, if_neg hq0]
      obtain ⟨i, rest, hque⟩ := List.exists_cons_of_ne_nil hq0
      have hstep := stepRR_inv ps q s i rest hq hI.toLoopInv0 hque
      exact runRR_term ps q hq fuel _ hstep.1 (by omega)

lemma inv_rrFinal (procs : List Proc) (q : ℤ) (hq : 1 ≤ q)
    (hbt : ∀ p ∈ procs, 0 < p.bt) :
    LoopInv (sortByArrival procs) (rrFinal procs q) ∧ (rrFinal procs q).queue = [] := by
  have hperm : List.Perm (sortByArrival procs) procs :=
    List.perm_insertionSort _ procs
  have hbt' : ∀ p ∈ sortByArrival procs, 0 < p.bt :=
    fun p hp => hbt p (hperm.mem_iff.mp hp)
  have hInit := inv_initState (sortByArrival procs) hbt'
  have hfuel : measureRR (initState (sortByArrival procs)) ≤ rrFuel (sortByArrival procs) := by
    show (((sortByArrival procs).map (·.bt)).map Int.toNat).sum ≤
      ((sortByArrival procs).map (fun p => p.bt.toNat)).sum + 1
    rw [List.map_map]
    exact Nat.le_succ _
  exact runRR_term (sortByArrival procs) q hq (rrFuel (sortByArrival procs)) _ hInit hfuel

/-! ## FCFS timeline lemmas -/

lemma fcfsGantt_cons (t : ℤ) (p : Proc) (rest : List Proc) :
    fcfsGantt t (p :: rest) =
      ⟨pidStr p.id, if t < p.at' then p.at' else t,
        (if t < p.at' then p.at' else t) + p.bt⟩ ::
        fcfsGantt ((if t < p.at' then p.at' else t) + p.bt) rest := by
  rw [fcfsGantt]

lemma fcfsGantt_props : ∀ (l : List Proc) (t : ℤ), (∀ p ∈ l, 0 < p.bt) →
    (∀ g ∈ fcfsGantt t l, t ≤ g.start ∧ g.start < g.stop) ∧
    List.Chain' (fun a b => a.stop ≤ b.start) (fcfsGantt t l)
  | [], t, _ => by simp [fcfsGantt]
  | p :: rest, t, hbt => by
    have hbtp : 0 < p.bt := hbt p (List.mem_cons_self _ _)
    set start := if t < p.at' then p.at' else t with hstart
    have hts : t ≤ start := by
      rw [hstart]
      split <;> omega
    have ih := fcfsGantt_props rest (start + p.bt)
      (fun x hx => hbt x (List.mem_cons_of_mem _ hx))
    rw [fcfsGantt_cons]
    constructor
    · intro g hg
      rcases List.mem_cons.mp hg with he | hm
      · subst he
        constructor
        · exact hts
        · show start < start + p.bt
          omega
      · have h := ih.1 g hm
        constructor
        · omega
        · exact h.2
    · rw [List.chain'_cons']
      refine ⟨?_, ih.2⟩
      intro b hb
      have hbm : b ∈ fcfsGantt (start + p.bt) rest := List.mem_of_mem_head? hb
      have h := ih.1 b hbm
      show start + p.bt ≤ b.start
      exact h.1

lemma fcfsGantt_durSum : ∀ (l : List Proc) (t : ℤ),
    durSum (fcfsGantt t l) = (l.map (·.bt)).sum
  | [], t => by simp [fcfsGantt, durSum]
  | p :: rest, t => by
    rw [fcfsGantt_cons]
    have ih := fcfsGantt_durSum rest ((if t < p.at' then p.at' else t) + p.bt)
    simp only [durSum, List.map_cons, List.sum_cons] at ih ⊢
    omega

lemma chain'_start_le (g : List Seg)
    (hc : List.Chain' (fun a b => a.stop ≤ b.start) g)
    (hp : ∀ x ∈ g, x.start < x.stop) :
    List.Chain' (fun a b => a.start ≤ b.start) g := by
  induction g with
  | nil => simp
  | cons a l ih =>
    rw [List.chain'_cons'] at hc ⊢
    refine ⟨?_, ih hc.2 (fun x hx => hp x (List.mem_cons_of_mem _ hx))⟩
    intro b hb
    have h1 := hc.1 b hb
    have h2 := hp a (List.mem_cons_self _ _)
    omega

lemma sortByArrival_btSum (procs : List Proc) :
    ((sortByArrival procs).map (·.bt)).sum = (procs.map (·.bt)).sum :=
  ((List.perm_insertionSort _ procs).map (·.bt)).sum_eq

lemma roundRobin_gantt (procs : List Proc) (q : ℤ) :
    (roundRobin procs q).gantt = (rrFinal procs q).gantt := rfl

lemma fcfsScheduler_gantt (procs : List Proc) :
    (fcfsScheduler procs).gantt = fcfsGantt 0 (sortByArrival procs) := rfl

/-! ## Claim theorems: termination, conservation, ordering -/

/-- C5: for every non-empty process list with positive burst times and
quantum ≥ 1, the RR main loop terminates (the queue empties within the
provided fuel) with every process completed: every per-process remaining
time is exactly 0. -/
theorem rr_terminates_all_complete (procs : List Proc) (q : ℤ)
    (hne : procs ≠ []) (hbt : ∀ p ∈ procs, 0 < p.bt) (hq : 1 ≤ q) :
    (rrFinal procs q).queue = [] ∧
    ∀ j < (sortByArrival procs).length, (rrFinal procs q).remaining.getD j 0 = 0 := by
  have h := inv_rrFinal procs q hq hbt
  exact ⟨h.2, h.1.emptyDone h.2⟩

theorem rr_terminates_all_complete_w :
    (rrFinal DEFAULT_PROCESSES 4).queue = [] ∧
    ∀ j < (sortByArrival DEFAULT_PROCESSES).length,
      (rrFinal DEFAULT_PROCESSES 4).remaining.getD j 0 = 0 :=
  rr_terminates_all_complete DEFAULT_PROCESSES 4 (by decide) (by decide) (by decide)

/-- C6: for every RR run with quantum ≥ 1 and every FCFS run over a
non-empty process list with non-negative arrivals and positive bursts,
the total duration of the produced timeline equals the total burst
time. -/
theorem conservation_total_burst (procs : List Proc) (q : ℤ)
    (hne : procs ≠ []) (hat : ∀ p ∈ procs, 0 ≤ p.at')
    (hbt : ∀ p ∈ procs, 0 < p.bt) (hq : 1 ≤ q) :
    durSum (roundRobin procs q).gantt = (procs.map (·.bt)).sum ∧
    durSum (fcfsScheduler procs).gantt = (procs.map (·.bt)).sum := by
  constructor
  · rw [roundRobin_gantt]
    have h := inv_rrFinal procs q hq hbt
    have hdone := h.1.emptyDone h.2
    have hzero : (rrFinal procs q).remaining.sum = 0 := by
      apply sum_eq_zero_of_getD
      intro j hj
      exact hdone j (by rw [← h.1.lenRem]; exact hj)
    have hcons := h.1.conserve
    rw [hzero] at hcons
    rw [← sortByArrival_btSum procs]
    omega
  · rw [fcfsScheduler_gantt, fcfsGantt_durSum, sortByArrival_btSum]

theorem conservation_total_burst_w :
    durSum (roundRobin DEFAULT_PROCESSES 4).gantt =
      (DEFAULT_PROCESSES.map (·.bt)).sum ∧
    durSum (fcfsScheduler DEFAULT_PROCESSES).gantt =
      (DEFAULT_PROCESSES.map (·.bt)).sum :=
  conservation_total_burst DEFAULT_PROCESSES 4 (by decide) (by decide)
    (by decide) (by decide)

/-- C7: in every RR run (quantum ≥ 1) and every FCFS run over processes
with positive bursts, the timeline is chronological and non-overlapping:
each segment has `end > start`, adjacent segments satisfy
`start[k+1] ≥ end[k]`, and the segments are sorted by `start`. -/
theorem timeline_segments_ordered (procs : List Proc) (q : ℤ)
    (hbt : ∀ p ∈ procs, 0 < p.bt) (hq : 1 ≤ q) :
    ((∀ g ∈ (roundRobin procs q).gantt, g.start < g.stop) ∧
      List.Chain' (fun a b => a.stop ≤ b.start) (roundRobin procs q).gantt ∧
      List.Chain' (fun a b => a.start ≤ b.start) (roundRobin procs q).gantt) ∧
    ((∀ g ∈ (fcfsScheduler procs).gantt, g.start < g.stop) ∧
      List.Chain' (fun a b => a.stop ≤ b.start) (fcfsScheduler procs).gantt ∧
      List.Chain' (fun a b => a.start ≤ b.start) (fcfsScheduler procs).gantt) := by
  constructor
  · rw [roundRobin_gantt]
    have h := inv_rrFinal procs q hq hbt
    refine ⟨h.1.ganttPos, h.1.ganttChain, ?_⟩
    exact chain'_start_le _ h.1.ganttChain h.1.ganttPos
  · rw [fcfsScheduler_gantt]
    have hbt' : ∀ p ∈ sortByArrival procs, 0 < p.bt :=
      fun p hp => hbt p ((List.perm_insertionSort _ procs).mem_iff.mp hp)
    have h := fcfsGantt_props (sortByArrival procs) 0 hbt'
    refine ⟨fun g hg => (h.1 g hg).2, h.2, ?_⟩
    exact chain'_start_le _ h.2 (fun g hg => (h.1 g hg).2)

theorem timeline_segments_ordered_w :
    ((∀ g ∈ (roundRobin DEFAULT_PROCESSES 4).gantt, g.start < g.stop) ∧
      List.Chain' (fun a b => a.stop ≤ b.start) (roundRobin DEFAULT_PROCESSES 4).gantt ∧
      List.Chain' (fun a b => a.start ≤ b.start) (roundRobin DEFAULT_PROCESSES 4).gantt) ∧
    ((∀ g ∈ (fcfsScheduler DEFAULT_PROCESSES).gantt, g.start < g.stop) ∧
      List.Chain' (fun a b => a.stop ≤ b.start) (fcfsScheduler DEFAULT_PROCESSES).gantt ∧
      List.Chain' (fun a b => a.start ≤ b.start) (fcfsScheduler DEFAULT_PROCESSES).gantt) :=
  timeline_segments_ordered DEFAULT_PROCESSES 4 (by decide) (by decide)

/-! ## Claim theorems: known scenario, empty input, sweep range, framing -/

/-- C1 (counterexample): the hand trace claimed in the spec — segments
ending `P3[16,20), P4[20,22), P3[22,24)` with `totalTime = 24` — is not
what the code computes for the default process set with quantum 4 (that
trace gives P3 ten time units although its burst is 8). -/
theorem rr_known_scenario_claim_false :
    ¬ ((roundRobin DEFAULT_PROCESSES 4).gantt =
        [⟨"P1", 0, 4⟩, ⟨"P2", 4, 7⟩, ⟨"P3", 7, 11⟩, ⟨"P4", 11, 15⟩,
         ⟨"P1", 15, 16⟩, ⟨"P3", 16, 20⟩, ⟨"P4", 20, 22⟩, ⟨"P3", 22, 24⟩] ∧
      (roundRobin DEFAULT_PROCESSES 4).totalTime = 24) := by decide

/-- C1 (amended): for the default process set and quantum 4 the RR
simulator produces exactly the segments P1[0,4), P2[4,7), P3[7,11),
P4[11,15), P1[15,16), P3[16,20), P4[20,22) and `totalTime = 22`. -/
theorem rr_known_scenario :
    (roundRobin DEFAULT_PROCESSES 4).gantt =
      [⟨"P1", 0, 4⟩, ⟨"P2", 4, 7⟩, ⟨"P3", 7, 11⟩, ⟨"P4", 11, 15⟩,
       ⟨"P1", 15, 16⟩, ⟨"P3", 16, 20⟩, ⟨"P4", 20, 22⟩] ∧
    (roundRobin DEFAULT_PROCESSES 4).totalTime = 22 := by decide

/-- C10: on the empty process list both simulators return normally, with
an empty timeline and result list, 0 context switches, `totalTime 0`,
`cpuUtil "0.00"`, `throughput "0.000"`, and `NaN` (modelled `none`)
averages from the `0/0` division. -/
theorem empty_input_normal_result (q : ℤ) :
    roundRobin [] q =
      ⟨[], [], 0, none, none, "0.00", "0.000", 0⟩ ∧
    fcfsScheduler [] =
      ⟨[], [], 0, none, none, "0.00", "0.000", 0⟩ :=
  ⟨rfl, rfl⟩

/-- C3 (counterexample): for the default process set the largest burst is
8, so the claimed inclusive sweep range is `1..max(2, 8+3) = 1..11`; but
quantum 11 is not analyzed (the code's `Array.from({length: maxQ - 1})`
stops at `maxQ - 1 = 10`). -/
theorem sweep_range_claim_false :
    (jsMathMax (DEFAULT_PROCESSES.map (·.bt)) = some 8 ∧
      maxQOf DEFAULT_PROCESSES = 11 ∧
      (1 : ℤ) ≤ 11 ∧ (11 : ℤ) ≤ max 2 ((8 : ℤ) + 3)) ∧
    (11 : ℤ) ∉ qValuesOf DEFAULT_PROCESSES := by decide

lemma maxQOf_ge_two (ps : List Proc) : 2 ≤ maxQOf ps := by
  unfold maxQOf
  cases jsMathMax (ps.map (·.bt)) with
  | none => exact le_refl 2
  | some m => exact le_max_left _ _

/-- C3 (amended): the default sweep analyzes exactly the integer quanta
in the inclusive range `1 .. max(2, maxBurstTime + 3) - 1`: membership in
`qValues` is equivalent to `1 ≤ k ≤ maxQ - 1`. -/
theorem sweep_range_covers (ps : List Proc) (k : ℤ) :
    k ∈ qValuesOf ps ↔ 1 ≤ k ∧ k ≤ maxQOf ps - 1 := by
  have h2 : 2 ≤ maxQOf ps := maxQOf_ge_two ps
  unfold qValuesOf
  constructor
  · intro hk
    rw [List.mem_map] at hk
    obtain ⟨i, hi, rfl⟩ := hk
    rw [List.mem_range] at hi
    have h3 : ((maxQOf ps - 1).toNat : ℤ) = maxQOf ps - 1 :=
      Int.toNat_of_nonneg (by omega)
    constructor
    · omega
    · omega
  · rintro ⟨hk1, hk2⟩
    rw [List.mem_map]
    refine ⟨(k - 1).toNat, ?_, ?_⟩
    · rw [List.mem_range]
      omega
    · show ((k - 1).toNat : ℤ) + 1 = k
      omega

lemma resultData_perm (l : List Proc) (f : ℕ × Proc → RRow)
    (hf : ∀ ip, (f ip).id = ip.2.id ∧ (f ip).at' = ip.2.at' ∧ (f ip).bt = ip.2.bt) :
    List.Perm ((List.insertionSort (fun a b : RRow => a.id ≤ b.id) (l.enum.map f)).map
      (fun r => Proc.mk r.id r.at' r.bt)) l := by
  have h1 : List.Perm (List.insertionSort (fun a b : RRow => a.id ≤ b.id) (l.enum.map f))
      (l.enum.map f) := List.perm_insertionSort _ _
  have h2 := h1.map (fun r => Proc.mk r.id r.at' r.bt)
  have h3 : (l.enum.map f).map (fun r => Proc.mk r.id r.at' r.bt) = l := by
    rw [List.map_map]
    have hcomp : ((fun r => Proc.mk r.id r.at' r.bt) ∘ f) = Prod.snd := by
      funext ip
      obtain ⟨ha, hb, hc⟩ := hf ip
      show Proc.mk (f ip).id (f ip).at' (f ip).bt = ip.2
      rw [ha, hb, hc]
    rw [hcomp, List.enum_map_snd]
  rw [h3] at h2
  exact h2

/-- C9: neither simulator mutates its input: the caller's array is
unchanged by the call (the engine sorts a copy and writes only to its own
arrays), and every `resultData` row carries the untouched `id`,
`arrivalTime` and `burstTime` of an input record (the rows are a
permutation of the input processes). -/
theorem engine_preserves_input (procs : List Proc) (q : ℤ) :
    (callRoundRobin procs q).2 = procs ∧ (callFcfs procs).2 = procs ∧
    List.Perm ((roundRobin procs q).resultData.map (fun r => Proc.mk r.id r.at' r.bt))
      procs ∧
    List.Perm ((fcfsScheduler procs).resultData.map (fun r => Proc.mk r.id r.at' r.bt))
      procs := by
  refine ⟨rfl, rfl, ?_, ?_⟩
  · exact (resultData_perm (sortByArrival procs) _
      (fun ip => ⟨rfl, rfl, rfl⟩)).trans (List.perm_insertionSort _ procs)
  · exact (resultData_perm (sortByArrival procs) _
      (fun ip => ⟨rfl, rfl, rfl⟩)).trans (List.perm_insertionSort _ procs)

/-! ## Claim theorems: validation behaviour and enqueue order -/

lemma q0_step (g : List Seg) :
    stepRR [⟨1, 0, 1⟩] 0 ⟨[1], [0], [0], 0, [0], [true], g⟩ =
      ⟨[1], [0], [0], 0, [0], [true], g ++ [⟨"P1", 0, 0⟩]⟩ := rfl

lemma q0_loop : ∀ (fuel : ℕ) (g : List Seg),
    (runRR [⟨1, 0, 1⟩] 0 fuel ⟨[1], [0], [0], 0, [0], [true], g⟩).queue = [0]
  | 0, _ => rfl
  | fuel + 1, g => by
    rw [runRR, if_neg (by simp), q0_step]
    exact q0_loop fuel _

/-- C2 (counterexample): on the empty process list the interface modelled
from the spec fails with `EmptyInput`, but the code's `roundRobin` and
`fcfsScheduler` contain no validation and return a complete, normal
result instead of failing. -/
theorem engine_validation_claim_false :
    specSimulateRoundRobin [] 1 = Except.error SchedError.EmptyInput ∧
    specSimulateFCFS [] = Except.error SchedError.EmptyInput ∧
    roundRobin [] 1 = ⟨[], [], 0, none, none, "0.00", "0.000", 0⟩ ∧
    fcfsScheduler [] = ⟨[], [], 0, none, none, "0.00", "0.000", 0⟩ :=
  ⟨rfl, rfl, rfl, rfl⟩

/-- C2 (amended): the engine performs no input validation.  On the empty
process list both simulators return the normal empty result (no error);
and with quantum 0 (< 1) on a non-empty list the RR loop never
terminates — after any number of iterations the queue is still
non-empty (each iteration runs a zero-length slice and re-enqueues the
process) — rather than failing with `InvalidQuantum`.  (Validation is the
caller's concern: the UI clamps with `Math.max(1, quantum)`.) -/
theorem engine_no_validation :
    roundRobin [] 1 = ⟨[], [], 0, none, none, "0.00", "0.000", 0⟩ ∧
    fcfsScheduler [] = ⟨[], [], 0, none, none, "0.00", "0.000", 0⟩ ∧
    ∀ fuel : ℕ, (runRR [⟨1, 0, 1⟩] 0 fuel (initState [⟨1, 0, 1⟩])).queue ≠ [] := by
  refine ⟨rfl, rfl, ?_⟩
  intro fuel
  cases fuel with
  | zero => decide
  | succ n =>
    rw [runRR, if_neg (by decide)]
    have h1 : stepRR [⟨1, 0, 1⟩] 0 (initState [⟨1, 0, 1⟩]) =
        ⟨[1], [0], [0], 0, [0], [true], [⟨"P1", 0, 0⟩]⟩ := by decide
    rw [h1, q0_loop n]
    decide

theorem engine_no_validation_w :
    (runRR [⟨1, 0, 1⟩] 0 5 (initState [⟨1, 0, 1⟩])).queue ≠ [] :=
  engine_no_validation.2.2 5

/-- C4 (counterexample): the newly arrived processes are enqueued in
arrival-scan order, not ascending-id order.  For the (already
arrival-sorted) set {(id 1, at 0, bt 3), (id 3, at 1, bt 1),
(id 2, at 2, bt 1)} with quantum 3, the first slice runs P1 to
completion, so the queue right after that slice consists exactly of the
processes enqueued by the arrival scan of that slice; their ids in
enqueue order are [3, 2], which is not ascending. -/
theorem step_enqueue_ascending_id_false :
    sortByArrival [⟨1, 0, 3⟩, ⟨3, 1, 1⟩, ⟨2, 2, 1⟩] =
      [⟨1, 0, 3⟩, ⟨3, 1, 1⟩, ⟨2, 2, 1⟩] ∧
    (stepRR [⟨1, 0, 3⟩, ⟨3, 1, 1⟩, ⟨2, 2, 1⟩] 3
        (initState [⟨1, 0, 3⟩, ⟨3, 1, 1⟩, ⟨2, 2, 1⟩])).queue.map
      (fun j => (([⟨1, 0, 3⟩, ⟨3, 1, 1⟩, ⟨2, 2, 1⟩] : List Proc).getD j default).id) =
      [3, 2] ∧
    ¬ List.Sorted (· ≤ ·) [(3 : ℤ), 2] := by decide

/-- C4 (amended): after each executed slice, the loop enqueues exactly
the not-yet-visited processes whose arrival time is ≤ the new current
time (with positive bursts they all still need CPU), in ascending order
of position in the arrival-sorted array — i.e. ascending arrival time,
ties broken by original input order — and all of them are enqueued
before the just-run process is re-enqueued at the tail. -/
theorem step_enqueue_order (ps : List Proc) (q : ℤ) (rem comp fr : List ℤ)
    (time : ℤ) (i : ℕ) (rest : List ℕ) (vis : List Bool) (g : List Seg)
    (hlenV : vis.length = ps.length)
    (hvisi : vis.getD i false = true)
    (hunv : ∀ j < ps.length, vis.getD j false = false →
      rem.getD j 0 = (ps.getD j default).bt)
    (hbt : ∀ p ∈ ps, 0 < p.bt) :
    ∃ stop rem' new,
      stop = (stepCore ps q ⟨rem, comp, fr, time, i :: rest, vis, g⟩).time ∧
      rem' = (stepCore ps q ⟨rem, comp, fr, time, i :: rest, vis, g⟩).remaining ∧
      new = (arrivalScan ps stop rem' vis).1 ∧
      (stepCore ps q ⟨rem, comp, fr, time, i :: rest, vis, g⟩).queue =
        (if 0 < rem'.getD i 0 then rest ++ new ++ [i] else rest ++ new) ∧
      List.Sorted (· < ·) new ∧
      (∀ j < ps.length, vis.getD j false = false →
        (ps.getD j default).at' ≤ stop → j ∈ new) ∧
      (∀ j ∈ new, j < ps.length ∧ vis.getD j false = false ∧
        (ps.getD j default).at' ≤ stop) ∧
      (List.Sorted (fun a b => a.at' ≤ b.at') ps →
        List.Sorted (· ≤ ·) (new.map (fun j => (ps.getD j default).at'))) := by
  have hndr := List.nodup_range ps.length
  set runTime := min (rem.getD i 0) q with hrunTime
  set stop := time + runTime with hstopdef
  set rem' := rem.set i (rem.getD i 0 - runTime) with hremdef
  set scan := arrivalScan ps stop rem' vis with hscandef
  have hstime : (stepCore ps q ⟨rem, comp, fr, time, i :: rest, vis, g⟩).time = stop := rfl
  have hsrem : (stepCore ps q ⟨rem, comp, fr, time, i :: rest, vis, g⟩).remaining = rem' := rfl
  have hsq : (stepCore ps q ⟨rem, comp, fr, time, i :: rest, vis, g⟩).queue =
      (if 0 < rem'.getD i 0 then rest ++ scan.1 ++ [i] else rest ++ scan.1) := rfl
  have hremo' : ∀ j, j ≠ i → rem'.getD j 0 = rem.getD j 0 := by
    intro j hj
    rw [hremdef]
    exact getD_set_ne (fun he => hj he.symm) _ _
  have hscanMem : ∀ k, k ∈ scan.1 ↔ (k < ps.length ∧ (ps.getD k default).at' ≤ stop ∧
      0 < rem'.getD k 0 ∧ vis.getD k false = false) := by
    intro k
    rw [hscandef]
    unfold arrivalScan
    rw [scanEnqueue_mem_iff _ _ _ hndr k, List.mem_range]
    simp only [Bool.and_eq_true, decide_eq_true_eq, Bool.not_eq_true']
    tauto
  have hscanSub : List.Sublist scan.1 (List.range ps.length) := by
    rw [hscandef]
    unfold arrivalScan
    exact scanEnqueue_sublist _ _ _
  have hsorted : List.Sorted (· < ·) scan.1 :=
    (List.sorted_lt_range ps.length).sublist hscanSub
  refine ⟨stop, rem', scan.1, hstime.symm, hsrem.symm, rfl, hsq, hsorted, ?_, ?_, ?_⟩
  · intro j hj hvf hat
    rw [hscanMem j]
    have hji : j ≠ i := by
      intro he
      rw [he, hvisi] at hvf
      exact absurd hvf (by simp)
    refine ⟨hj, hat, ?_, hvf⟩
    rw [hremo' j hji, hunv j hj hvf]
    exact hbt _ (getD_mem hj default)
  · intro j hj
    have h := (hscanMem j).mp hj
    exact ⟨h.1, h.2.2.2, h.2.1⟩
  · intro hps
    have hpair : List.Pairwise
        (fun a b => (ps.getD a default).at' ≤ (ps.getD b default).at') scan.1 := by
      refine hsorted.imp_of_mem ?_
      intro a b ha hb hab
      have haLt : a < ps.length := ((hscanMem a).mp ha).1
      have hbLt : b < ps.length := ((hscanMem b).mp hb).1
      rw [List.getD_eq_getElem _ _ haLt, List.getD_eq_getElem _ _ hbLt]
      have h2 := List.pairwise_iff_get.mp hps ⟨a, haLt⟩ ⟨b, hbLt⟩ hab
      simpa using h2
    exact List.pairwise_map.mpr hpair

theorem step_enqueue_order_w :
    ∃ stop rem' new,
      stop = (stepCore DEFAULT_PROCESSES 4
        ⟨[5, 3, 8, 6], [0, 0, 0, 0], [-1, -1, -1, -1], 0, [0],
          [true, false, false, false], []⟩).time ∧
      rem' = (stepCore DEFAULT_PROCESSES 4
        ⟨[5, 3, 8, 6], [0, 0, 0, 0], [-1, -1, -1, -1], 0, [0],
          [true, false, false, false], []⟩).remaining ∧
      new = (arrivalScan DEFAULT_PROCESSES stop rem' [true, false, false, false]).1 ∧
      (stepCore DEFAULT_PROCESSES 4
        ⟨[5, 3, 8, 6], [0, 0, 0, 0], [-1, -1, -1, -1], 0, [0],
          [true, false, false, false], []⟩).queue =
        (if 0 < rem'.getD 0 0 then [] ++ new ++ [0] else [] ++ new) ∧
      List.Sorted (· < ·) new ∧
      (∀ j < DEFAULT_PROCESSES.length,
        [true, false, false, false].getD j false = false →
        (DEFAULT_PROCESSES.getD j default).at' ≤ stop → j ∈ new) ∧
      (∀ j ∈ new, j < DEFAULT_PROCESSES.length ∧
        [true, false, false, false].getD j false = false ∧
        (DEFAULT_PROCESSES.getD j default).at' ≤ stop) ∧
      (List.Sorted (fun a b => a.at' ≤ b.at') DEFAULT_PROCESSES →
        List.Sorted (· ≤ ·)
          (new.map (fun j => (DEFAULT_PROCESSES.getD j default).at'))) :=
  step_enqueue_order DEFAULT_PROCESSES 4 [5, 3, 8, 6] [0, 0, 0, 0]
    [-1, -1, -1, -1] 0 0 [] [true, false, false, false] []
    (by decide) (by decide) (by decide) (by decide)

/-! ## Claim theorem: the sweep's optimal quantum -/

lemma jsLtO_irrefl (a : Option ℚ) : jsLtO a a = false := by
  cases a with
  | none => rfl
  | some x => simp [jsLtO]

lemma foldl_minAwt : ∀ (l : List SweepPoint) (a : SweepPoint),
    (∀ p ∈ a :: l, p.awt.isSome) →
    List.Pairwise (fun x y : SweepPoint => x.q < y.q) (a :: l) →
    (l.foldl (fun m p => if jsLtO p.awt m.awt then p else m) a ∈ a :: l) ∧
    (∀ p ∈ a :: l,
      (l.foldl (fun m p => if jsLtO p.awt m.awt then p else m) a).awt.getD 0 ≤
        p.awt.getD 0) ∧
    (∀ p ∈ a :: l,
      p.awt = (l.foldl (fun m p => if jsLtO p.awt m.awt then p else m) a).awt →
      (l.foldl (fun m p => if jsLtO p.awt m.awt then p else m) a).q ≤ p.q)
  | [], a, _, _ => by
    refine ⟨List.mem_cons_self _ _, ?_, ?_⟩
    · intro p hp
      have : p = a := by simpa using hp
      subst this
      exact le_refl _
    · intro p hp _
      have : p = a := by simpa using hp
      subst this
      exact le_refl _
  | b :: t, a, hsome, hpw => by
    obtain ⟨xa, hxa⟩ := Option.isSome_iff_exists.mp (hsome a (List.mem_cons_self _ _))
    obtain ⟨xb, hxb⟩ := Option.isSome_iff_exists.mp
      (hsome b (List.mem_cons_of_mem _ (List.mem_cons_self _ _)))
    have hab : a.q < b.q := (List.pairwise_cons.mp hpw).1 b (List.mem_cons_self _ _)
    have hat : ∀ y ∈ t, a.q < y.q :=
      fun y hy => (List.pairwise_cons.mp hpw).1 y (List.mem_cons_of_mem _ hy)
    have hpw2 := (List.pairwise_cons.mp hpw).2
    have hbt : ∀ y ∈ t, b.q < y.q := (List.pairwise_cons.mp hpw2).1
    have hpt := (List.pairwise_cons.mp hpw2).2
    have hsomet : ∀ p ∈ t, p.awt.isSome :=
      fun p hp => hsome p (List.mem_cons_of_mem _ (List.mem_cons_of_mem _ hp))
    have hfold : (b :: t).foldl (fun m p => if jsLtO p.awt m.awt then p else m) a =
        t.foldl (fun m p => if jsLtO p.awt m.awt then p else m)
          (if jsLtO b.awt a.awt then b else a) := rfl
    by_cases hlt : jsLtO b.awt a.awt = true
    · have hxblt : xb < xa := by
        rw [hxa, hxb] at hlt
        simpa [jsLtO] using hlt
      have hfb : (if jsLtO b.awt a.awt then b else a) = b := if_pos hlt
      have ih := foldl_minAwt t b
        (fun p hp => by
          rcases List.mem_cons.mp hp with he | hm
          · rw [he]; exact Option.isSome_iff_exists.mpr ⟨xb, hxb⟩
          · exact hsomet p hm)
        (List.pairwise_cons.mpr ⟨hbt, hpt⟩)
      rw [hfold, hfb]
      obtain ⟨ih1, ih2, ih3⟩ := ih
      set r := t.foldl (fun m p => if jsLtO p.awt m.awt then p else m) b with hr
      refine ⟨List.mem_cons_of_mem _ ih1, ?_, ?_⟩
      · intro p hp
        rcases List.mem_cons.mp hp with rfl | hm
        · have h1 := ih2 b (List.mem_cons_self _ _)
          rw [hxb] at h1
          rw [hxa]
          simp only [Option.getD_some] at h1 ⊢
          linarith
        · exact ih2 p hm
      · intro p hp hpe
        rcases List.mem_cons.mp hp with rfl | hm
        · exfalso
          have h1 := ih2 b (List.mem_cons_self _ _)
          have hre : r.awt = some xa := by rw [← hpe, hxa]
          rw [hxb, hre] at h1
          simp only [Option.getD_some] at h1
          linarith
        · exact ih3 p hm hpe
    · have hxale : xa ≤ xb := by
        rw [hxa, hxb] at hlt
        simp only [jsLtO, decide_eq_true_eq] at hlt
        exact le_of_not_lt hlt
      have hfb : (if jsLtO b.awt a.awt then b else a) = a := if_neg hlt
      have ih := foldl_minAwt t a
        (fun p hp => by
          rcases List.mem_cons.mp hp with he | hm
          · rw [he]; exact Option.isSome_iff_exists.mpr ⟨xa, hxa⟩
          · exact hsomet p hm)
        (List.pairwise_cons.mpr ⟨hat, hpt⟩)
      rw [hfold, hfb]
      obtain ⟨ih1, ih2, ih3⟩ := ih
      set r := t.foldl (fun m p => if jsLtO p.awt m.awt then p else m) a with hr
      refine ⟨?_, ?_, ?_⟩
      · rcases List.mem_cons.mp ih1 with he | hm
        · rw [he]
          exact List.mem_cons_self _ _
        · exact List.mem_cons_of_mem _ (List.mem_cons_of_mem _ hm)
      · intro p hp
        rcases List.mem_cons.mp hp with rfl | hm
        · exact ih2 p (List.mem_cons_self _ _)
        · rcases List.mem_cons.mp hm with rfl | hm2
          · have h1 := ih2 a (List.mem_cons_self _ _)
            rw [hxa] at h1
            rw [hxb]
            simp only [Option.getD_some] at h1 ⊢
            linarith
          · exact ih2 p (List.mem_cons_of_mem _ hm2)
      · intro p hp hpe
        rcases List.mem_cons.mp hp with rfl | hm
        · exact ih3 p (List.mem_cons_self _ _) hpe
        · rcases List.mem_cons.mp hm with rfl | hm2
          · have h1 := ih2 a (List.mem_cons_self _ _)
            have hre : r.awt = some xb := by rw [← hpe, hxb]
            rw [hxa, hre] at h1
            simp only [Option.getD_some] at h1
            have hxeq : xa = xb := le_antisymm hxale h1
            have hae : a.awt = r.awt := by rw [hxa, hre, hxeq]
            have h2 := ih3 a (List.mem_cons_self _ _) hae
            omega
          · exact ih3 p (List.mem_cons_of_mem _ hm2) hpe

lemma sweepPoints_pairwise (ps : List Proc) :
    List.Pairwise (fun x y : SweepPoint => x.q < y.q) (sweepPoints ps) := by
  unfold sweepPoints qValuesOf
  rw [List.pairwise_map, List.pairwise_map]
  refine (List.pairwise_lt_range _).imp ?_
  intro i j hij
  show (i : ℤ) + 1 < (j : ℤ) + 1
  omega

lemma avgWt_isSome (ps : List Proc) (hne : ps ≠ []) (q : ℤ) :
    (roundRobin ps q).avgWt.isSome := by
  have hlen : (sortByArrival ps).length = ps.length :=
    List.length_insertionSort _ _
  have hne' : ((sortByArrival ps).length : ℚ) ≠ 0 := by
    rw [hlen]
    simp only [ne_eq, Nat.cast_eq_zero, List.length_eq_zero]
    exact hne
  show (jsDiv _ ((sortByArrival ps).length : ℚ)).isSome
  unfold jsDiv
  rw [if_neg hne']
  rfl

lemma sweepPoints_ne_nil (ps : List Proc) : sweepPoints ps ≠ [] := by
  have h2 : 2 ≤ maxQOf ps := maxQOf_ge_two ps
  have hlen : (sweepPoints ps).length = (maxQOf ps - 1).toNat := by
    unfold sweepPoints qValuesOf
    simp
  apply List.ne_nil_of_length_pos
  rw [hlen]
  omega

lemma mem_sweepPoints_awt (ps : List Proc) (hne : ps ≠ []) :
    ∀ p ∈ sweepPoints ps, p.awt.isSome := by
  intro p hp
  unfold sweepPoints at hp
  rw [List.mem_map] at hp
  obtain ⟨qv, _, rfl⟩ := hp
  exact avgWt_isSome ps hne qv

/-- C8: the sweep's `minAwtPoint` belongs to the sweep table, attains the
minimal average waiting time (under the `ps ≠ []` data-model assumption
every `awt` is a real number, extracted by `getD 0`), and among equal
minima it has the smallest quantum — the strict `<` in the `reduce` keeps
the first, i.e. smallest, quantum of any tie. -/
theorem optimal_quantum_min_awt (ps : List Proc) (hne : ps ≠ []) :
    minAwtPoint ps ∈ sweepPoints ps ∧
    (∀ p ∈ sweepPoints ps, (minAwtPoint ps).awt.getD 0 ≤ p.awt.getD 0) ∧
    (∀ p ∈ sweepPoints ps, p.awt = (minAwtPoint ps).awt →
      (minAwtPoint ps).q ≤ p.q) := by
  obtain ⟨p0, rest, hps⟩ := List.exists_cons_of_ne_nil (sweepPoints_ne_nil ps)
  have hsome := mem_sweepPoints_awt ps hne
  have hpw := sweepPoints_pairwise ps
  rw [hps] at hsome hpw
  have hmin : minAwtPoint ps =
      rest.foldl (fun m p => if jsLtO p.awt m.awt then p else m) p0 := by
    unfold minAwtPoint
    rw [hps]
    show ((p0 :: rest).foldl (fun m p => if jsLtO p.awt m.awt then p else m)
      ((p0 :: rest).headD ⟨0, none, none, 0⟩)) = _
    rw [List.headD_cons]
    show rest.foldl (fun m p => if jsLtO p.awt m.awt then p else m)
      (if jsLtO p0.awt p0.awt then p0 else p0) = _
    rw [jsLtO_irrefl]
    simp
  have h := foldl_minAwt rest p0 hsome hpw
  rw [hps, hmin]
  exact h

theorem optimal_quantum_min_awt_w :
    minAwtPoint DEFAULT_PROCESSES ∈ sweepPoints DEFAULT_PROCESSES ∧
    (∀ p ∈ sweepPoints DEFAULT_PROCESSES,
      (minAwtPoint DEFAULT_PROCESSES).awt.getD 0 ≤ p.awt.getD 0) ∧
    (∀ p ∈ sweepPoints DEFAULT_PROCESSES,
      p.awt = (minAwtPoint DEFAULT_PROCESSES).awt →
      (minAwtPoint DEFAULT_PROCESSES).q ≤ p.q) :=
  optimal_quantum_min_awt DEFAULT_PROCESSES (by decide)
